import Mathlib

/-!
Verification of the FrozenList container (src/frozenlist/_frozenlist.pyx).

The source is a single Cython class `FrozenList` holding a backing Python
list `_items` and an atomic boolean `_frozen`.  We embed it shallowly:

* `FrozenList α` is a record of the flag and the item list.
* Each method of the class becomes a Lean function; fallible methods
  return `Except PyErr _`, mirroring the Python exceptions raised.
* The Python builtins the class delegates to (`list.sort`,
  `list.__getitem__` with slices, list lexicographic comparison, ...) are
  modelled by executable Lean functions with the builtins' documented
  semantics.
* Object identity / aliasing (the eager copy in `__init__` and the
  memo-driven `__deepcopy__`) is modelled with small explicit heaps of
  numbered cells.
-/

/-- The Python exception kinds raised by the module's code paths. -/
inductive PyErr where
  | runtimeError (msg : String)
  | indexError (msg : String)
  | valueError (msg : String)
  | typeError (msg : String)
deriving DecidableEq, Repr

/-- The state of a `FrozenList` object: the atomic `_frozen` flag and the
backing list `_items`. -/
structure FrozenList (α : Type) where
  _frozen : Bool
  _items : List α
deriving DecidableEq, Repr

namespace FrozenList

variable {α : Type} {β : Type}

/-- Method `__init__(self, items=None)`: the flag starts false; a given source
sequence is materialised (`PySequence_List`), otherwise a fresh empty
list is used.  (The aliasing aspect of `PySequence_List` is modelled
separately on a heap, see `PyListHeap.initRef` below.) -/
def init (items : Option (List α)) : FrozenList α :=
  { _frozen := false, _items := items.getD [] }

/-- The `frozen` property: an atomic read of the flag. -/
def frozen (l : FrozenList α) : Bool := l._frozen

/-- Method `__len__`. -/
def length (l : FrozenList α) : Nat := l._items.length

/-- Method `_check_frozen`: raise `RuntimeError` when the flag is set. -/
def _check_frozen (l : FrozenList α) : Except PyErr Unit :=
  if l._frozen then .error (.runtimeError "Cannot modify frozen list.")
  else .ok ()

/-- Method `freeze()`: store true into the flag. -/
def freeze (l : FrozenList α) : FrozenList α := { l with _frozen := true }

/-- Python index adjustment for a list of length `n`: negative indices
count from the end; the result is `none` when out of range. -/
def pyAdjust (i : Int) (n : Nat) : Option Nat :=
  let j : Int := if i < 0 then i + n else i
  if 0 ≤ j ∧ j < (n : Int) then some j.toNat else none

/-- Method `__getitem__` with an integer index (delegates to
`list.__getitem__`). -/
def getitem (l : FrozenList α) (i : Int) : Except PyErr α :=
  match pyAdjust i l._items.length with
  | some j =>
    match l._items[j]? with
    | some v => .ok v
    | none => .error (.indexError "list index out of range")
  | none => .error (.indexError "list index out of range")

/-- A Python slice object: optional start, stop and step. -/
structure PySlice where
  start : Option Int
  stop : Option Int
  step : Option Int
deriving DecidableEq, Repr

/-- The `slice.indices`-style computation: the list of positions a slice
selects in a list of length `n` (all results lie in `[0, n)`), or a
`ValueError` for a zero step.  Follows CPython `PySlice_AdjustIndices`. -/
def sliceIndexList (s : PySlice) (n : Nat) : Except PyErr (List Int) :=
  let step := s.step.getD 1
  if step = 0 then .error (.valueError "slice step cannot be zero")
  else if step > 0 then
    let adj : Int → Int := fun x => max 0 (min (if x < 0 then x + n else x) n)
    let start := match s.start with
      | none => 0
      | some x => adj x
    let stop := match s.stop with
      | none => (n : Int)
      | some x => adj x
    let count := if start < stop then ((stop - start - 1) / step).toNat + 1 else 0
    .ok ((List.range count).map (fun k => start + k * step))
  else
    let adj : Int → Int := fun x =>
      max (-1) (min (if x < 0 then x + n else x) ((n : Int) - 1))
    let start := match s.start with
      | none => (n : Int) - 1
      | some x => adj x
    let stop := match s.stop with
      | none => (-1 : Int)
      | some x => adj x
    let count := if stop < start then ((start - stop - 1) / (-step)).toNat + 1 else 0
    .ok ((List.range count).map (fun k => start + k * step))

/-- Method `__getitem__` with a slice index. -/
def getitemSlice (l : FrozenList α) (s : PySlice) : Except PyErr (List α) :=
  match sliceIndexList s l._items.length with
  | .error e => .error e
  | .ok idxs => .ok (idxs.filterMap (fun i => l._items[i.toNat]?))

/-- Method `__setitem__` with an integer index: guard, then
`list.__setitem__`. -/
def setitem (l : FrozenList α) (i : Int) (v : α) : Except PyErr (FrozenList α) := do
  l._check_frozen
  match pyAdjust i l._items.length with
  | some j => pure { l with _items := l._items.set j v }
  | none => .error (.indexError "list assignment index out of range")

/-- Pointwise assignment of values at given positions (used by extended
slice assignment). -/
def assignAt : List α → List Int → List α → List α
  | items, i :: is, v :: vs => assignAt (items.set i.toNat v) is vs
  | items, _, _ => items

/-- Method `__setitem__` with a slice index: guard, then `list` slice
assignment (contiguous replacement for step 1, length-checked pointwise
assignment for an extended slice). -/
def setitemSlice (l : FrozenList α) (s : PySlice) (vs : List α) :
    Except PyErr (FrozenList α) := do
  l._check_frozen
  match sliceIndexList s l._items.length with
  | .error e => .error e
  | .ok idxs =>
    if s.step.getD 1 = 1 then
      let lo := (match s.start with
        | none => 0
        | some x => max 0 (min (if x < 0 then x + l._items.length else x) l._items.length))
      let hi := (match s.stop with
        | none => (l._items.length : Int)
        | some x => max 0 (min (if x < 0 then x + l._items.length else x) l._items.length))
      pure { l with _items :=
        l._items.take lo.toNat ++ vs ++ l._items.drop (max lo hi).toNat }
    else if vs.length = idxs.length then
      pure { l with _items := assignAt l._items idxs vs }
    else
      .error (.valueError "attempt to assign sequence to extended slice of improper size")

/-- Method `__delitem__` with an integer index: guard, then `list.__delitem__`. -/
def delitem (l : FrozenList α) (i : Int) : Except PyErr (FrozenList α) := do
  l._check_frozen
  match pyAdjust i l._items.length with
  | some j => pure { l with _items := l._items.eraseIdx j }
  | none => .error (.indexError "list assignment index out of range")

/-- Method `__delitem__` with a slice index: guard, then drop the selected
positions. -/
def delitemSlice (l : FrozenList α) (s : PySlice) : Except PyErr (FrozenList α) := do
  l._check_frozen
  match sliceIndexList s l._items.length with
  | .error e => .error e
  | .ok idxs =>
    pure { l with _items :=
      (List.range l._items.length).filterMap (fun i =>
        if (idxs.map Int.toNat).contains i then none else l._items[i]?) }

/-- The `list.insert` position clamping: negative positions count from the
end and everything is clamped into `[0, n]`. -/
def pyInsertPos (pos : Int) (n : Nat) : Nat :=
  let p := if pos < 0 then pos + n else pos
  if p < 0 then 0 else min p.toNat n

/-- Method `insert(pos, item)`: guard, then `list.insert`. -/
def insert (l : FrozenList α) (pos : Int) (item : α) : Except PyErr (FrozenList α) := do
  l._check_frozen
  let j := pyInsertPos pos l._items.length
  pure { l with _items := l._items.take j ++ [item] ++ l._items.drop j }

/-- Method `__contains__`. -/
def contains [DecidableEq α] (l : FrozenList α) (item : α) : Bool :=
  l._items.any (fun y => y = item)

/-- Method `__iadd__`: guard, then `list.extend`. -/
def iadd (l : FrozenList α) (items : List α) : Except PyErr (FrozenList α) := do
  l._check_frozen
  pure { l with _items := l._items ++ items }

/-- Method `sort(self, key=None, reverse=False)`: guard, then
`self._items.sort(key, reverse)`.  CPython's `list.sort` accepts `key`
and `reverse` as keyword-only arguments, and Cython compiles this
two-argument call as an ordinary positional call (only the
zero-argument `list.sort()` form is specialised), so once the frozen
guard passes the delegated call always raises
`TypeError: sort() takes no positional arguments` and never sorts. -/
def sort (l : FrozenList α) (key : α → β) (reverse : Bool) :
    Except PyErr (FrozenList α) := do
  l._check_frozen
  .error (.typeError "sort() takes no positional arguments")

/-- First index of an equal item, for `index`/`remove`. -/
def firstIndex [DecidableEq α] : List α → α → Option Nat
  | [], _ => none
  | y :: ys, x =>
    if y = x then some 0
    else (firstIndex ys x).map (· + 1)

/-- Method `index(item)`: delegates to `list.index`. -/
def index [DecidableEq α] (l : FrozenList α) (item : α) : Except PyErr Nat :=
  match firstIndex l._items item with
  | some j => .ok j
  | none => .error (.valueError "x not in list")

/-- Drop the first occurrence of an equal item. -/
def removeFirst [DecidableEq α] : List α → α → List α
  | [], _ => []
  | y :: ys, x => if y = x then ys else y :: removeFirst ys x

/-- Method `remove(item)`: guard, then `list.remove` (raises `ValueError` when
the item is absent, before any mutation). -/
def remove [DecidableEq α] (l : FrozenList α) (item : α) : Except PyErr (FrozenList α) := do
  l._check_frozen
  if l._items.any (fun y => y = item) then
    pure { l with _items := removeFirst l._items item }
  else
    .error (.valueError "list.remove(x): x not in list")

/-- Method `clear()`: guard, then `list.clear`. -/
def clear (l : FrozenList α) : Except PyErr (FrozenList α) := do
  l._check_frozen
  pure { l with _items := [] }

/-- Method `extend(items)`: guard, then `list.extend`. -/
def extend (l : FrozenList α) (items : List α) : Except PyErr (FrozenList α) := do
  l._check_frozen
  pure { l with _items := l._items ++ items }

/-- Method `reverse()`: guard, then `list.reverse`. -/
def reverse (l : FrozenList α) : Except PyErr (FrozenList α) := do
  l._check_frozen
  pure { l with _items := l._items.reverse }

/-- Method `pop(index=-1)`: guard, then `list.pop` (raises `IndexError` on an
empty list or an out-of-range index, before any mutation). -/
def pop (l : FrozenList α) (index : Int) : Except PyErr (α × FrozenList α) := do
  l._check_frozen
  if l._items.length = 0 then
    .error (.indexError "pop from empty list")
  else
    match pyAdjust index l._items.length with
    | some j =>
      match l._items[j]? with
      | some v => pure (v, { l with _items := l._items.eraseIdx j })
      | none => .error (.indexError "pop index out of range")
    | none => .error (.indexError "pop index out of range")

/-- Method `append(item)`: guard, then `PyList_Append`. -/
def append (l : FrozenList α) (item : α) : Except PyErr (FrozenList α) := do
  l._check_frozen
  pure { l with _items := l._items ++ [item] }

/-- Method `count(item)`: delegates to `PySequence_Count`. -/
def count [DecidableEq α] (l : FrozenList α) (item : α) : Nat :=
  l._items.countP (fun y => y = item)

/-- Model of the Python builtin lexicographic comparison of lists
(`list.__lt__` and friends): compare elementwise, shorter prefixes
compare less. -/
def pyListCompare [LinearOrder α] : List α → List α → Ordering
  | [], [] => .eq
  | [], _ :: _ => .lt
  | _ :: _, [] => .gt
  | x :: xs, y :: ys =>
    if x < y then .lt else if y < x then .gt else pyListCompare xs ys

/-- Method `__richcmp__(self, other, op)`: each branch compares `list(self)`
(that is, the item sequence) with `other` using the builtin list
comparison; an op outside `0..5` falls through (returns `None`). -/
def richcmp [LinearOrder α] (l : FrozenList α) (other : List α) (op : Nat) :
    Option Bool :=
  if op = 0 then some (decide (pyListCompare l._items other = Ordering.lt))
  else if op = 1 then some (decide (pyListCompare l._items other ≠ Ordering.gt))
  else if op = 2 then some (decide (pyListCompare l._items other = Ordering.eq))
  else if op = 3 then some (decide (pyListCompare l._items other ≠ Ordering.eq))
  else if op = 4 then some (decide (pyListCompare l._items other = Ordering.gt))
  else if op = 5 then some (decide (pyListCompare l._items other ≠ Ordering.lt))
  else none

/-- Method `__richcmp__` when `other` is itself a `FrozenList`: the builtin
list comparison falls back to the reflected `FrozenList` comparison, so
the item sequences are compared; neither frozen flag is consulted. -/
def richcmpFL [LinearOrder α] (l other : FrozenList α) (op : Nat) : Option Bool :=
  richcmp l other._items op

/-- Method `__hash__`: defined only when frozen, as the hash of the tuple of
items.  The builtin tuple hash is an arbitrary function of the item
sequence, so it is a parameter here. -/
def pyHash (hashTuple : List α → Int) (l : FrozenList α) : Except PyErr Int :=
  if l._frozen then .ok (hashTuple l._items)
  else .error (.runtimeError "Cannot hash unfrozen list.")

end FrozenList

/-- One state-affecting call on a `FrozenList`: every mutating method of
the class, plus `freeze`. -/
inductive Op (α : Type) where
  | setitemInt (i : Int) (v : α)
  | setitemSlice (s : FrozenList.PySlice) (vs : List α)
  | delitemInt (i : Int)
  | delitemSlice (s : FrozenList.PySlice)
  | insert (pos : Int) (v : α)
  | iadd (vs : List α)
  | sort (key : α → α) (reverse : Bool)
  | remove (v : α)
  | clear
  | extend (vs : List α)
  | reverse
  | pop (i : Int)
  | append (v : α)
  | freeze

/-- All of `Op` except `freeze` is a mutating operation. -/
def Op.isMutation {α : Type} : Op α → Bool
  | .freeze => false
  | _ => true

/-- Dispatch an `Op` to the corresponding method. -/
def applyOp {α : Type} [LinearOrder α] (l : FrozenList α) :
    Op α → Except PyErr (FrozenList α)
  | .setitemInt i v => l.setitem i v
  | .setitemSlice s vs => l.setitemSlice s vs
  | .delitemInt i => l.delitem i
  | .delitemSlice s => l.delitemSlice s
  | .insert pos v => l.insert pos v
  | .iadd vs => l.iadd vs
  | .sort key reverse => l.sort key reverse
  | .remove v => l.remove v
  | .clear => l.clear
  | .extend vs => l.extend vs
  | .reverse => l.reverse
  | .pop i => (l.pop i).map (fun p => p.2)
  | .append v => l.append v
  | .freeze => .ok l.freeze

/-- The state after a call: the new state on success, the old state when
the call raised (all raising paths precede any mutation). -/
def runOp {α : Type} [LinearOrder α] (l : FrozenList α) (op : Op α) : FrozenList α :=
  match applyOp l op with
  | .ok l2 => l2
  | .error _ => l


/-! ## A heap of Python list cells, for the eager copy in `__init__`

`PySequence_List(items)` builds a brand-new list object with the same
contents as the source.  We model list objects as numbered cells so the
"new object" aspect (no aliasing with the source) is visible. -/

/-- First-match association lookup (Python dict / object table). -/
def alookup {β : Type} (a : Nat) : List (Nat × β) → Option β
  | [] => none
  | p :: ps => if p.1 = a then some p.2 else alookup a ps

/-- A heap of Python list objects: cell address to contents, plus the
next fresh address.  Writing prepends, so the newest binding wins. -/
structure PyListHeap (α : Type) where
  cells : List (Nat × List α)
  next : Nat

/-- Every allocated cell address is below `next`. -/
def PyListHeap.WF {α : Type} (h : PyListHeap α) : Prop :=
  ∀ p ∈ h.cells, p.1 < h.next

/-- A `FrozenList` object seen at reference level: the flag plus the
address of the backing list cell. -/
structure FLRef where
  frozen : Bool
  itemsAddr : Nat
deriving DecidableEq, Repr

/-- Method `__init__` at reference level: with a source list, materialise a
fresh cell holding a copy of the source's contents
(`PySequence_List`); with `None`, a fresh empty cell (`PyList_New(0)`).
`none` only when the source address dangles. -/
def initRef {α : Type} (h : PyListHeap α) (src : Option Nat) :
    Option (FLRef × PyListHeap α) :=
  match src with
  | some s =>
    match alookup s h.cells with
    | some contents =>
      some ({ frozen := false, itemsAddr := h.next },
            { cells := (h.next, contents) :: h.cells, next := h.next + 1 })
    | none => none
  | none =>
    some ({ frozen := false, itemsAddr := h.next },
          { cells := (h.next, []) :: h.cells, next := h.next + 1 })

/-- An in-place mutation of the list object at address `a` (any plain
`list` mutation by external code, seen as replacing the contents). -/
def writeCell {α : Type} (h : PyListHeap α) (a : Nat) (v : List α) : PyListHeap α :=
  { cells := (a, v) :: h.cells, next := h.next }

/-! ## An object heap for `__deepcopy__`

`__deepcopy__` walks an object graph that may be cyclic, carrying a
memo from source identity to the already-created copy.  Items are
either opaque atoms (modelled as integers, which `copy.deepcopy` maps
to themselves) or references to other `FrozenList` objects. -/

/-- An item value: an atom, or a reference to a `FrozenList` object. -/
inductive PyVal where
  | int (n : Int)
  | ref (a : Nat)
deriving DecidableEq, Repr

/-- A `FrozenList` object on the heap. -/
structure FLObj where
  frozen : Bool
  items : List PyVal
deriving DecidableEq, Repr

/-- A heap of `FrozenList` objects. -/
structure Heap where
  objs : List (Nat × FLObj)
  next : Nat

/-- Find the object at an address. -/
def Heap.find (h : Heap) (a : Nat) : Option FLObj := alookup a h.objs

/-- Allocate a fresh object (`self.__class__([])` during deep copy). -/
def Heap.alloc (h : Heap) (o : FLObj) : Heap :=
  { objs := (h.next, o) :: h.objs, next := h.next + 1 }

/-- Overwrite the object at an address (newest binding wins). -/
def Heap.update (h : Heap) (a : Nat) (o : FLObj) : Heap :=
  { objs := (a, o) :: h.objs, next := h.next }

/-- Every allocated address is below `next`. -/
def Heap.WFBound (h : Heap) : Prop := ∀ p ∈ h.objs, p.1 < h.next

/-- Every reference stored in an object of `h` resolves in `h`. -/
def Heap.Closed (h : Heap) : Prop :=
  ∀ a obj, h.find a = some obj → ∀ b, PyVal.ref b ∈ obj.items → (h.find b).isSome

/-- The deep-copy memo: source address to copy address. -/
abbrev Memo := List (Nat × Nat)

mutual

/-- Method `FrozenList.__deepcopy__(self, memo)`: return the memoised copy if
the source was already visited; otherwise allocate an empty unfrozen
copy, register it in the memo *before* copying the items, deep-copy the
items, install them, and finally freeze the copy when the source is
frozen.  `fuel` bounds the recursion depth (the Python runtime has no
such bound; totality with sufficient fuel is proved below). -/
def deepcopyObj : Nat → Heap → Memo → Nat → Option (Nat × Heap × Memo)
  | 0, _, _, _ => none
  | fuel + 1, h, memo, a =>
    match alookup a memo with
    | some b => some (b, h, memo)
    | none =>
      match h.find a with
      | none => none
      | some obj =>
        let b := h.next
        let h1 := h.alloc { frozen := false, items := [] }
        let memo1 := (a, b) :: memo
        match deepcopyItems fuel h1 memo1 obj.items with
        | none => none
        | some (vs, h2, memo2) =>
          let h3 := h2.update b { frozen := false, items := vs }
          let h4 := if obj.frozen then h3.update b { frozen := true, items := vs } else h3
          some (b, h4, memo2)
termination_by fuel h memo a => (fuel, 0)

/-- The comprehension `[copy.deepcopy(item, memo) for item in self._items]`: atoms copy
to themselves, references recurse through `deepcopyObj`. -/
def deepcopyItems : Nat → Heap → Memo → List PyVal → Option (List PyVal × Heap × Memo)
  | _, h, memo, [] => some ([], h, memo)
  | fuel, h, memo, PyVal.int n :: rest =>
    match deepcopyItems fuel h memo rest with
    | none => none
    | some (vs, h2, memo2) => some (PyVal.int n :: vs, h2, memo2)
  | fuel, h, memo, PyVal.ref a :: rest =>
    match deepcopyObj fuel h memo a with
    | none => none
    | some (b, h1, memo1) =>
      match deepcopyItems fuel h1 memo1 rest with
      | none => none
      | some (vs, h2, memo2) => some (PyVal.ref b :: vs, h2, memo2)
termination_by fuel h memo l => (fuel, l.length)

end

/-! ## C4: deep copy of (possibly cyclic) object graphs

The proof plan: the memo only ever maps *source* addresses (from the
original heap `h0`) to freshly allocated copies, the heap only grows
except at the fresh copy being populated, and every completed memo
entry is a faithful copy.  Sufficient fuel is one more than the number
of objects of `h0`, since each level of recursion that consumes fuel
also claims an unvisited source address in the memo. -/

/-- Heap `h2` extends `h`: everything allocated in `h` is unchanged, and the
allocation counter does not go backwards. -/
def HeapExt (h h2 : Heap) : Prop :=
  h.next ≤ h2.next ∧ ∀ a, (h.find a).isSome → h2.find a = h.find a

/-- The memo is well formed for the original heap `h0`: keys are
distinct source addresses of `h0`, values are addresses allocated after
`h0` (fresh copies, never source objects). -/
def MemoOK (h0 : Heap) (memo : Memo) : Prop :=
  (memo.map Prod.fst).Nodup ∧
  ∀ p ∈ memo, (h0.find p.1).isSome ∧ h0.next ≤ p.2

/-- How many source addresses of `h0` the memo has not visited yet. -/
def remainingCount (h0 : Heap) (memo : Memo) : Nat :=
  (h0.objs.map Prod.fst).countP (fun a => (alookup a memo).isNone)

/-- The copied item list mirrors the source item list: equal length,
atoms preserved, references mapped through the memo. -/
def ItemsCopied (memo : Memo) (src dst : List PyVal) : Prop :=
  src.length = dst.length ∧
  (∀ (i : Nat) (n : Int), src[i]? = some (PyVal.int n) → dst[i]? = some (PyVal.int n)) ∧
  (∀ (i : Nat) (a : Nat), src[i]? = some (PyVal.ref a) →
    ∃ b : Nat, alookup a memo = some b ∧ dst[i]? = some (PyVal.ref b))

/-- The memo pair `p` is a completed copy: the destination object
exists, carries the source's frozen flag, and mirrors its items. -/
def Copied (h0 h : Heap) (memo : Memo) (p : Nat × Nat) : Prop :=
  ∃ objS objD, h0.find p.1 = some objS ∧ h.find p.2 = some objD ∧
    objD.frozen = objS.frozen ∧ ItemsCopied memo objS.items objD.items


/-! ### The deep-copy invariants, by induction on fuel -/

/-- What `deepcopyObj` guarantees at a given fuel (for every heap
extending the original `h0` and every well-formed memo with enough fuel
left): it succeeds, extends the heap, extends the memo by fresh
completed copies, and the requested address is memoised. -/
def ObjSpec (h0 : Heap) (fuel : Nat) : Prop :=
  ∀ h memo a, h.WFBound → HeapExt h0 h → MemoOK h0 memo →
    (h0.find a).isSome → remainingCount h0 memo < fuel →
    ∃ b h2 memo2 mD,
      deepcopyObj fuel h memo a = some (b, h2, memo2) ∧
      h2.WFBound ∧ HeapExt h h2 ∧ MemoOK h0 memo2 ∧
      memo2 = mD ++ memo ∧
      alookup a memo2 = some b ∧
      (∀ p ∈ memo2, p ∈ memo ∨ h.next ≤ p.2) ∧
      (∀ p ∈ memo2, p ∈ memo ∨ Copied h0 h2 memo2 p)

/-- What `deepcopyItems` guarantees at a given fuel. -/
def ItemsSpec (h0 : Heap) (fuel : Nat) : Prop :=
  ∀ h memo items, h.WFBound → HeapExt h0 h → MemoOK h0 memo →
    (∀ c, PyVal.ref c ∈ items → (h0.find c).isSome) →
    remainingCount h0 memo < fuel →
    ∃ vs h2 memo2 mD,
      deepcopyItems fuel h memo items = some (vs, h2, memo2) ∧
      h2.WFBound ∧ HeapExt h h2 ∧ MemoOK h0 memo2 ∧
      memo2 = mD ++ memo ∧
      ItemsCopied memo2 items vs ∧
      (∀ p ∈ memo2, p ∈ memo ∨ h.next ≤ p.2) ∧
      (∀ p ∈ memo2, p ∈ memo ∨ Copied h0 h2 memo2 p)



/-- Sanity evaluation of the sort model on a concrete list: the
positional delegation to `list.sort` raises `TypeError`. -/
lemma sanity_sort_concrete : (FrozenList.init (some [(3 : Int), 1, 2])).sort (fun a => a) false
    = .error (.typeError "sort() takes no positional arguments") := by rfl

/-- Sanity evaluation of pop on a concrete list. -/
lemma sanity_pop_concrete : (FrozenList.init (some [(1 : Int), 2])).pop (-1)
    = .ok (2, { _frozen := false, _items := [1] }) := by rfl

/-- Sanity evaluation of richcmp on concrete lists. -/
lemma sanity_richcmp_concrete : FrozenList.richcmp { _frozen := true, _items := [(1 : Int), 2] } [1, 3] 0
    = some true := by decide

/-- Sanity evaluation of the deep copy on a one-object cycle: object 0
is frozen and holds an atom and itself. -/
lemma sanity_deepcopy_concrete :
    deepcopyObj 2
      { objs := [(0, { frozen := true, items := [PyVal.int 7, PyVal.ref 0] })], next := 1 }
      [] 0
    = some (1,
        { objs := [(1, { frozen := true, items := [PyVal.int 7, PyVal.ref 1] }),
                   (1, { frozen := false, items := [PyVal.int 7, PyVal.ref 1] }),
                   (1, { frozen := false, items := [] }),
                   (0, { frozen := true, items := [PyVal.int 7, PyVal.ref 0] })],
          next := 2 },
        [(0, 1)]) := by
  simp [deepcopyObj, deepcopyItems, Heap.find, Heap.alloc, Heap.update, alookup]

/-! ## Helper lemmas: the frozen guard -/

namespace FrozenList

variable {α : Type}

lemma check_frozen_of_frozen {l : FrozenList α} (h : l._frozen = true) :
    l._check_frozen = .error (.runtimeError "Cannot modify frozen list.") := by
  simp [_check_frozen, h]

lemma check_frozen_of_unfrozen {l : FrozenList α} (h : l._frozen = false) :
    l._check_frozen = .ok () := by
  simp [_check_frozen, h]

end FrozenList

/-- Every mutating operation on a frozen list raises the frozen-state
`RuntimeError` (shared by several claims). -/
lemma mutation_frozen_error {α : Type} [LinearOrder α] (l : FrozenList α) (op : Op α)
    (hf : l._frozen = true) (hm : op.isMutation = true) :
    applyOp l op = .error (.runtimeError "Cannot modify frozen list.") := by
  have hc := FrozenList.check_frozen_of_frozen hf
  cases op <;>
    simp_all [applyOp, Op.isMutation, FrozenList.setitem, FrozenList.setitemSlice,
      FrozenList.delitem, FrozenList.delitemSlice, FrozenList.insert, FrozenList.iadd,
      FrozenList.sort, FrozenList.remove, FrozenList.clear, FrozenList.extend,
      FrozenList.reverse, FrozenList.pop, FrozenList.append, Bind.bind, Except.bind,
      Except.map]

/-- Lemma: `runOp` never clears the frozen flag. -/
lemma frozen_runOp {α : Type} [LinearOrder α] (l : FrozenList α) (op : Op α)
    (hf : l._frozen = true) : (runOp l op)._frozen = true := by
  by_cases hm : op.isMutation = true
  · simp [runOp, mutation_frozen_error l op hf hm, hf]
  · cases op <;> simp_all [Op.isMutation, runOp, applyOp, FrozenList.freeze]

/-- C1 helper: the state after a mutating call on a frozen list is the
old state. -/
lemma runOp_frozen_eq {α : Type} [LinearOrder α] (l : FrozenList α) (op : Op α)
    (hf : l._frozen = true) (hm : op.isMutation = true) : runOp l op = l := by
  simp [runOp, mutation_frozen_error l op hf hm]

/-- C1: every mutating operation (set item or slice, delete item or
slice, insert, in-place concatenation, sort, remove, clear, extend,
reverse, pop, append) on a frozen list fails with the frozen-state
`RuntimeError` and leaves the item sequence (contents and length)
unchanged. -/
theorem frozenList_mutation_on_frozen_fails {α : Type} [LinearOrder α]
    (l : FrozenList α) (op : Op α) (hf : l.frozen = true) (hm : op.isMutation = true) :
    applyOp l op = .error (.runtimeError "Cannot modify frozen list.") ∧
    runOp l op = l := by
  exact ⟨mutation_frozen_error l op hf hm, runOp_frozen_eq l op hf hm⟩

/-- Witness for C1 at a concrete frozen list and a concrete mutating
call. -/
theorem frozenList_mutation_on_frozen_fails_witness :
    applyOp { _frozen := true, _items := [(1 : Int), 2] } (Op.append 3)
      = .error (.runtimeError "Cannot modify frozen list.") ∧
    runOp { _frozen := true, _items := [(1 : Int), 2] } (Op.append 3)
      = { _frozen := true, _items := [(1 : Int), 2] } :=
  frozenList_mutation_on_frozen_fails _ _ rfl rfl

/-- C2: `freeze()` sets the flag (and, being a total function, never
fails); iterating it `n ≥ 1` times equals calling it once; and after a
freeze the flag stays true across every sequence of further
operations. -/
theorem frozenList_freeze_idempotent_monotonic {α : Type} [LinearOrder α]
    (l : FrozenList α) (n : Nat) (hn : 1 ≤ n) (ops : List (Op α)) :
    (l.freeze).frozen = true ∧
    FrozenList.freeze^[n] l = l.freeze ∧
    (ops.foldl runOp l.freeze).frozen = true := by
  refine ⟨rfl, ?_, ?_⟩
  · induction n with
    | zero => omega
    | succ m ih =>
      cases Nat.eq_or_lt_of_le hn with
      | inl h1 =>
        have : m = 0 := by omega
        subst this
        simp [Function.iterate_one]
      | inr h1 =>
        have hm : 1 ≤ m := by omega
        rw [Function.iterate_succ_apply', ih hm]
        rfl
  · have key : ∀ (ops : List (Op α)) (x : FrozenList α), x._frozen = true →
        (ops.foldl runOp x)._frozen = true := by
      intro ops
      induction ops with
      | nil => intro x hx; simpa using hx
      | cons op rest ih =>
        intro x hx
        exact ih (runOp x op) (frozen_runOp x op hx)
    exact key ops l.freeze rfl

/-- Witness for C2 at a concrete list, `n = 3` and a concrete operation
sequence. -/
theorem frozenList_freeze_idempotent_monotonic_witness :
    ((FrozenList.init (some [(1 : Int), 2])).freeze).frozen = true ∧
    FrozenList.freeze^[3] (FrozenList.init (some [(1 : Int), 2]))
      = (FrozenList.init (some [(1 : Int), 2])).freeze ∧
    (([Op.append 5, Op.clear, Op.freeze].foldl runOp
        (FrozenList.init (some [(1 : Int), 2])).freeze)).frozen = true :=
  frozenList_freeze_idempotent_monotonic _ 3 (by decide) _

/-- C3: hashing an unfrozen list raises the illegal-hash-state
`RuntimeError`; hashing a frozen list returns the hash of the tuple of
its current items; hence two frozen lists with equal item sequences
hash equal. -/
theorem frozenList_hash_spec {α : Type} (hashTuple : List α → Int) :
    (∀ x : FrozenList α, x.frozen = false →
        x.pyHash hashTuple = .error (.runtimeError "Cannot hash unfrozen list.")) ∧
    (∀ x : FrozenList α, x.frozen = true →
        x.pyHash hashTuple = .ok (hashTuple x._items)) ∧
    (∀ x y : FrozenList α, x.frozen = true → y.frozen = true →
        x._items = y._items → x.pyHash hashTuple = y.pyHash hashTuple) := by
  refine ⟨?_, ?_, ?_⟩
  · intro x hx; simp [FrozenList.pyHash, FrozenList.frozen] at hx ⊢; simp [hx]
  · intro x hx; simp [FrozenList.pyHash, FrozenList.frozen] at hx ⊢; simp [hx]
  · intro x y hx hy hxy
    simp [FrozenList.pyHash, FrozenList.frozen] at hx hy ⊢
    simp [hx, hy, hxy]

/-- Witness for C3 at concrete frozen and unfrozen lists. -/
theorem frozenList_hash_spec_witness :
    FrozenList.pyHash (fun l => (l.length : Int))
        { _frozen := true, _items := [(7 : Int)] } = .ok 1 ∧
    FrozenList.pyHash (fun l => (l.length : Int))
        ({ _frozen := false, _items := [(7 : Int)] } : FrozenList Int)
      = .error (.runtimeError "Cannot hash unfrozen list.") :=
  ⟨(frozenList_hash_spec _).2.1 _ rfl,
   (frozenList_hash_spec _).1 _ rfl⟩

/-! ## Helper lemmas: pop -/

lemma eraseIdx_length_concat {α : Type} (l : List α) (a : α) :
    (l ++ [a]).eraseIdx l.length = l := by
  induction l with
  | nil => rfl
  | cons x xs ih => simp [List.eraseIdx, ih]

lemma getElem?_length_concat {α : Type} (l : List α) (a : α) :
    (l ++ [a])[l.length]? = some a := by
  induction l with
  | nil => rfl
  | cons x xs ih => simpa using ih

/-- C8: on an unfrozen list, `pop` with an out-of-range index (in
particular the default index on an empty list) raises `IndexError` and
leaves the sequence unchanged. -/
theorem frozenList_pop_out_of_range {α : Type} [LinearOrder α]
    (x : FrozenList α) (i : Int) (hf : x.frozen = false)
    (hbad : x._items = [] ∨ FrozenList.pyAdjust i x._items.length = none) :
    (∃ msg, x.pop i = .error (.indexError msg)) ∧
    (x._items = [] → x.pop i = .error (.indexError "pop from empty list")) ∧
    runOp x (Op.pop i) = x := by
  have hc := FrozenList.check_frozen_of_unfrozen (l := x) hf
  have herr : ∃ msg, x.pop i = .error (.indexError msg) := by
    rcases hbad with hnil | hadj
    · refine ⟨"pop from empty list", ?_⟩
      simp [FrozenList.pop, hc, Bind.bind, Except.bind, hnil]
    · by_cases hnil : x._items = []
      · refine ⟨"pop from empty list", ?_⟩
        simp [FrozenList.pop, hc, Bind.bind, Except.bind, hnil]
      · refine ⟨"pop index out of range", ?_⟩
        have hlen : x._items.length ≠ 0 := by
          simpa [List.length_eq_zero] using hnil
        simp [FrozenList.pop, hc, Bind.bind, Except.bind, hlen, hadj]
  refine ⟨herr, ?_, ?_⟩
  · intro hnil
    simp [FrozenList.pop, hc, Bind.bind, Except.bind, hnil]
  · obtain ⟨msg, hmsg⟩ := herr
    simp [runOp, applyOp, hmsg, Except.map]

/-- Witness for C8: `FrozenList().pop()` fails with out-of-range. -/
theorem frozenList_pop_out_of_range_witness :
    (∃ msg, (FrozenList.init (none : Option (List Int))).pop (-1)
        = .error (.indexError msg)) ∧
    ((FrozenList.init (none : Option (List Int)))._items = [] →
      (FrozenList.init (none : Option (List Int))).pop (-1)
        = .error (.indexError "pop from empty list")) ∧
    runOp (FrozenList.init (none : Option (List Int))) (Op.pop (-1))
      = FrozenList.init none :=
  frozenList_pop_out_of_range _ _ rfl (Or.inl rfl)

/-- C9: on an unfrozen list, `append v` then `pop()` succeeds, returns
`v` and restores the prior state exactly. -/
theorem frozenList_append_pop_roundtrip {α : Type} (x : FrozenList α) (v : α)
    (hf : x.frozen = false) :
    ∃ x1, x.append v = .ok x1 ∧ x1.pop (-1) = .ok (v, x) := by
  have hc := FrozenList.check_frozen_of_unfrozen (l := x) hf
  refine ⟨{ x with _items := x._items ++ [v] }, ?_, ?_⟩
  · simp [FrozenList.append, hc, Bind.bind, Except.bind, Pure.pure, Except.pure]
  · have hc1 : ({ x with _items := x._items ++ [v] } : FrozenList α)._check_frozen
        = .ok () := FrozenList.check_frozen_of_unfrozen hf
    have hlen : (x._items ++ [v]).length = x._items.length + 1 := by simp
    have hadj : FrozenList.pyAdjust (-1) (x._items.length + 1)
        = some x._items.length := by
      simp only [FrozenList.pyAdjust]
      have h2 : (0 : Int) ≤ -1 + (x._items.length + 1 : Nat) := by
        push_cast; omega
      have h3 : (-1 : Int) + (x._items.length + 1 : Nat) < ((x._items.length + 1 : Nat) : Int) := by
        push_cast; omega
      simp [h2, h3]
    simp [FrozenList.pop, hc1, Bind.bind, Except.bind, hlen, hadj,
      getElem?_length_concat, eraseIdx_length_concat, Pure.pure, Except.pure]

/-- Witness for C9 at a concrete list and value. -/
theorem frozenList_append_pop_roundtrip_witness :
    ∃ x1, (FrozenList.init (some [(1 : Int), 2])).append 9 = .ok x1 ∧
      x1.pop (-1) = .ok (9, FrozenList.init (some [(1 : Int), 2])) :=
  frozenList_append_pop_roundtrip _ _ rfl

/-- C10: on a frozen list, the frozen-state error wins over `pop`'s
out-of-range error (for every index, including on an empty list) and
over `remove`'s item-not-found error (for every item, present or
not). -/
theorem frozenList_frozen_error_priority {α : Type} [DecidableEq α]
    (x : FrozenList α) (i : Int) (v : α) (hf : x.frozen = true) :
    x.pop i = .error (.runtimeError "Cannot modify frozen list.") ∧
    x.remove v = .error (.runtimeError "Cannot modify frozen list.") := by
  have hc := FrozenList.check_frozen_of_frozen (l := x) hf
  constructor
  · simp [FrozenList.pop, hc, Bind.bind, Except.bind]
  · simp [FrozenList.remove, hc, Bind.bind, Except.bind]

/-- Witness for C10 on a frozen *empty* list (so `pop`'s own bounds
check would fire, and the item to remove is absent). -/
theorem frozenList_frozen_error_priority_witness :
    ({ _frozen := true, _items := [] } : FrozenList Int).pop (-1)
      = .error (.runtimeError "Cannot modify frozen list.") ∧
    ({ _frozen := true, _items := [] } : FrozenList Int).remove 5
      = .error (.runtimeError "Cannot modify frozen list.") :=
  frozenList_frozen_error_priority _ _ _ rfl

/-! ## C5: the sort delegation bug -/

/-- C5 (code bug): the claim and the specification say `sort()` stably
sorts an unfrozen list in place, but the source forwards `key` and
`reverse` positionally to the keyword-only `list.sort`, so on every
unfrozen list `sort` raises `TypeError` and never sorts; in particular
`FrozenList([3,1,2]).sort()` fails instead of producing `[1,2,3]`. -/
theorem frozenList_sort_raises_typeerror {α β : Type}
    (items : List α) (key : α → β) (rev : Bool) :
    (FrozenList.mk false items).sort key rev
      = .error (.typeError "sort() takes no positional arguments") ∧
    (FrozenList.init (some [(3 : Int), 1, 2])).sort (fun a : Int => a) false
      = .error (.typeError "sort() takes no positional arguments") := by
  constructor
  · rfl
  · rfl


/-! ## Helper lemmas: the builtin list comparison -/

namespace FrozenList

variable {α : Type} [LinearOrder α]

lemma pyListCompare_eq_iff (l1 l2 : List α) :
    pyListCompare l1 l2 = Ordering.eq ↔ l1 = l2 := by
  induction l1 generalizing l2 with
  | nil => cases l2 <;> simp [pyListCompare]
  | cons x xs ih =>
    cases l2 with
    | nil => simp [pyListCompare]
    | cons y ys =>
      rcases lt_trichotomy x y with h1 | h1 | h1
      · simp only [pyListCompare, h1, ite_true]
        constructor
        · intro h; exact absurd h (by decide)
        · intro h
          injection h with hxy hrest
          rw [hxy] at h1
          exact absurd h1 (lt_irrefl y)
      · subst h1
        simp [pyListCompare, lt_irrefl, ih]
      · have h2 : ¬ x < y := asymm h1
        simp only [pyListCompare, h1, h2, ite_true, ite_false]
        constructor
        · intro h; exact absurd h (by decide)
        · intro h
          injection h with hxy hrest
          rw [hxy] at h1
          exact absurd h1 (lt_irrefl y)

lemma pyListCompare_lt_iff (l1 l2 : List α) :
    pyListCompare l1 l2 = Ordering.lt ↔ List.Lex (· < ·) l1 l2 := by
  induction l1 generalizing l2 with
  | nil =>
    cases l2 with
    | nil =>
      constructor
      · intro h; simp [pyListCompare] at h
      · intro h; exact absurd h (List.Lex.not_nil_right _ _)
    | cons y ys =>
      constructor
      · intro _; exact List.Lex.nil
      · intro _; rfl
  | cons x xs ih =>
    cases l2 with
    | nil =>
      constructor
      · intro h; exact absurd h (by simp [pyListCompare])
      · intro h; exact absurd h (List.Lex.not_nil_right _ _)
    | cons y ys =>
      rcases lt_trichotomy x y with h1 | h1 | h1
      · constructor
        · intro _; exact List.Lex.rel h1
        · intro _; simp [pyListCompare, h1]
      · subst h1
        rw [show pyListCompare (x :: xs) (x :: ys) = pyListCompare xs ys by
          simp [pyListCompare, lt_irrefl], ih]
        exact Iff.symm List.Lex.cons_iff
      · constructor
        · intro h
          simp [pyListCompare, h1, asymm h1] at h
        · intro h
          cases h with
          | cons h2 => exact absurd h1 (lt_irrefl _)
          | rel h2 => exact absurd h2 (asymm h1)

lemma pyListCompare_swap (l1 l2 : List α) :
    (pyListCompare l1 l2).swap = pyListCompare l2 l1 := by
  induction l1 generalizing l2 with
  | nil => cases l2 <;> simp [pyListCompare, Ordering.swap]
  | cons x xs ih =>
    cases l2 with
    | nil => simp [pyListCompare, Ordering.swap]
    | cons y ys =>
      rcases lt_trichotomy x y with h1 | h1 | h1
      · simp [pyListCompare, h1, asymm h1, Ordering.swap]
      · subst h1; simp [pyListCompare, lt_irrefl, ih]
      · simp [pyListCompare, h1, asymm h1, Ordering.swap]

lemma pyListCompare_gt_iff (l1 l2 : List α) :
    pyListCompare l1 l2 = Ordering.gt ↔ List.Lex (· < ·) l2 l1 := by
  rw [← pyListCompare_swap l2 l1, ← pyListCompare_lt_iff l2 l1]
  cases pyListCompare l2 l1 <;> simp [Ordering.swap]

lemma ordering_ne_gt_iff (o : Ordering) :
    o ≠ Ordering.gt ↔ o = Ordering.lt ∨ o = Ordering.eq := by
  cases o <;> decide

lemma ordering_ne_lt_iff (o : Ordering) :
    o ≠ Ordering.lt ↔ o = Ordering.gt ∨ o = Ordering.eq := by
  cases o <;> decide

end FrozenList

/-- C7: each of the six rich-comparison operators compares the item
sequence with the other sequence lexicographically; the result does not
depend on the frozen flag of either side. -/
theorem frozenList_richcmp_spec {α : Type} [LinearOrder α]
    (f1 f2 : Bool) (items other : List α) :
    (FrozenList.richcmp ⟨f1, items⟩ other 0 = some true
        ↔ List.Lex (· < ·) items other) ∧
    (FrozenList.richcmp ⟨f1, items⟩ other 1 = some true
        ↔ List.Lex (· < ·) items other ∨ items = other) ∧
    (FrozenList.richcmp ⟨f1, items⟩ other 2 = some true ↔ items = other) ∧
    (FrozenList.richcmp ⟨f1, items⟩ other 3 = some true ↔ items ≠ other) ∧
    (FrozenList.richcmp ⟨f1, items⟩ other 4 = some true
        ↔ List.Lex (· < ·) other items) ∧
    (FrozenList.richcmp ⟨f1, items⟩ other 5 = some true
        ↔ List.Lex (· < ·) other items ∨ items = other) ∧
    (∀ op, FrozenList.richcmp ⟨f1, items⟩ other op
        = FrozenList.richcmp ⟨f2, items⟩ other op) ∧
    (∀ op (y : FrozenList α),
        FrozenList.richcmpFL ⟨f1, items⟩ y op
          = FrozenList.richcmp ⟨f1, items⟩ y._items op) := by
  refine ⟨?_, ?_, ?_, ?_, ?_, ?_, fun op => rfl, fun op y => rfl⟩
  · simp only [FrozenList.richcmp, if_true, if_pos rfl, Option.some.injEq,
      decide_eq_true_iff]
    exact FrozenList.pyListCompare_lt_iff items other
  · show some (decide (FrozenList.pyListCompare items other ≠ Ordering.gt)) = some true ↔ _
    simp only [Option.some.injEq, decide_eq_true_iff]
    rw [FrozenList.ordering_ne_gt_iff, FrozenList.pyListCompare_lt_iff,
      FrozenList.pyListCompare_eq_iff]
  · show some (decide (FrozenList.pyListCompare items other = Ordering.eq)) = some true ↔ _
    simp only [Option.some.injEq, decide_eq_true_iff]
    exact FrozenList.pyListCompare_eq_iff items other
  · show some (decide (FrozenList.pyListCompare items other ≠ Ordering.eq)) = some true ↔ _
    simp only [Option.some.injEq, decide_eq_true_iff]
    rw [ne_eq, FrozenList.pyListCompare_eq_iff]
  · show some (decide (FrozenList.pyListCompare items other = Ordering.gt)) = some true ↔ _
    simp only [Option.some.injEq, decide_eq_true_iff]
    exact FrozenList.pyListCompare_gt_iff items other
  · show some (decide (FrozenList.pyListCompare items other ≠ Ordering.lt)) = some true ↔ _
    simp only [Option.some.injEq, decide_eq_true_iff]
    rw [FrozenList.ordering_ne_lt_iff, FrozenList.pyListCompare_gt_iff,
      FrozenList.pyListCompare_eq_iff]

/-! ## C6: the constructor's eager copy -/

lemma alookup_mem {β : Type} {a : Nat} {b : β} {l : List (Nat × β)}
    (h : alookup a l = some b) : (a, b) ∈ l := by
  induction l with
  | nil => simp [alookup] at h
  | cons p ps ih =>
    by_cases hp : p.1 = a
    · simp [alookup, hp] at h
      have hpab : p = (a, b) := by
        cases p
        simp_all
      rw [← hpab]
      exact List.mem_cons_self _ _
    · simp [alookup, hp] at h
      exact List.mem_cons_of_mem _ (ih h)

/-- C6: constructing from a source list `S` yields an unfrozen
container that holds (a fresh copy of) exactly `S`'s contents and
compares equal to `S`; and because the backing cell is a fresh object,
any later in-place mutation of the source list leaves the container's
contents untouched. -/
theorem frozenList_ctor_eager_copy {α : Type} [LinearOrder α]
    (h : PyListHeap α) (s : Nat) (S : List α)
    (hwf : h.WF) (hs : alookup s h.cells = some S) :
    ∃ r h1, initRef h (some s) = some (r, h1) ∧
      r.frozen = false ∧
      alookup r.itemsAddr h1.cells = some S ∧
      r.itemsAddr ≠ s ∧
      FrozenList.richcmp ⟨r.frozen, S⟩ S 2 = some true ∧
      ∀ S2, alookup r.itemsAddr (writeCell h1 s S2).cells = some S := by
  have hlt : s < h.next := hwf (s, S) (alookup_mem hs)
  have hne : h.next ≠ s := by omega
  refine ⟨{ frozen := false, itemsAddr := h.next },
    { cells := (h.next, S) :: h.cells, next := h.next + 1 }, ?_, rfl, ?_, ?_, ?_, ?_⟩
  · simp [initRef, hs]
  · simp [alookup]
  · simpa using hne
  · have : FrozenList.pyListCompare S S = Ordering.eq :=
      (FrozenList.pyListCompare_eq_iff S S).mpr rfl
    simp [FrozenList.richcmp, this]
  · intro S2
    have hsne : s ≠ h.next := by omega
    simp [writeCell, alookup, hsne]

/-! ### Association-list and heap basics -/

lemma mem_keys_of_alookup_some {β : Type} {a : Nat} {b : β} {l : List (Nat × β)}
    (h : alookup a l = some b) : a ∈ l.map Prod.fst :=
  List.mem_map.mpr ⟨(a, b), alookup_mem h, rfl⟩

lemma alookup_none_not_mem {β : Type} {a : Nat} {l : List (Nat × β)}
    (h : alookup a l = none) : a ∉ l.map Prod.fst := by
  intro hmem
  induction l with
  | nil => simp at hmem
  | cons p ps ih =>
    by_cases hp : p.1 = a
    · simp [alookup, hp] at h
    · simp [alookup, hp] at h
      rcases List.mem_map.mp hmem with ⟨q, hq, hqa⟩
      rcases List.mem_cons.mp hq with rfl | hq2
      · exact hp hqa
      · exact ih h (List.mem_map.mpr ⟨q, hq2, hqa⟩)

lemma alookup_append_of_not_mem {β : Type} (d m : List (Nat × β)) (a : Nat)
    (ha : a ∉ d.map Prod.fst) : alookup a (d ++ m) = alookup a m := by
  induction d with
  | nil => rfl
  | cons p ps ih =>
    have hp : p.1 ≠ a := by
      intro he
      exact ha (List.mem_map.mpr ⟨p, List.mem_cons_self _ _, he⟩)
    simp only [List.cons_append, alookup, hp, ite_false]
    apply ih
    intro hmem
    rcases List.mem_map.mp hmem with ⟨q, hq, hqa⟩
    exact ha (List.mem_map.mpr ⟨q, List.mem_cons_of_mem _ hq, hqa⟩)

/-- Lookup results survive a memo extension with distinct keys. -/
lemma alookup_stable {d m : List (Nat × Nat)}
    (hnd : ((d ++ m).map Prod.fst).Nodup) {a b : Nat}
    (h : alookup a m = some b) : alookup a (d ++ m) = some b := by
  have hkm : a ∈ m.map Prod.fst := mem_keys_of_alookup_some h
  have hkd : a ∉ d.map Prod.fst := by
    rw [List.map_append] at hnd
    intro hmem
    exact List.disjoint_of_nodup_append hnd hmem hkm
  rw [alookup_append_of_not_mem _ _ _ hkd]
  exact h

lemma find_alloc_self (h : Heap) (o : FLObj) : (h.alloc o).find h.next = some o := by
  simp [Heap.alloc, Heap.find, alookup]

lemma find_alloc_ne (h : Heap) (o : FLObj) {x : Nat} (hx : x ≠ h.next) :
    (h.alloc o).find x = h.find x := by
  have hxn : h.next ≠ x := fun e => hx e.symm
  simp [Heap.alloc, Heap.find, alookup, hxn]

lemma find_update_self (h : Heap) (a : Nat) (o : FLObj) :
    (h.update a o).find a = some o := by
  simp [Heap.update, Heap.find, alookup]

lemma find_update_ne (h : Heap) (a : Nat) (o : FLObj) {x : Nat} (hx : x ≠ a) :
    (h.update a o).find x = h.find x := by
  have hax : a ≠ x := fun e => hx e.symm
  simp [Heap.update, Heap.find, alookup, hax]

lemma find_lt_next {h : Heap} (hwf : h.WFBound) {x : Nat}
    (hx : (h.find x).isSome) : x < h.next := by
  rcases Option.isSome_iff_exists.mp hx with ⟨o, ho⟩
  exact hwf (x, o) (alookup_mem ho)

lemma find_next_none {h : Heap} (hwf : h.WFBound) : h.find h.next = none := by
  cases hfind : h.find h.next with
  | none => rfl
  | some o => exact absurd (hwf (h.next, o) (alookup_mem hfind)) (lt_irrefl _)

lemma WFBound_alloc {h : Heap} (hwf : h.WFBound) (o : FLObj) :
    (h.alloc o).WFBound := by
  intro p hp
  rcases List.mem_cons.mp hp with rfl | hp2
  · simp [Heap.alloc]
  · have := hwf p hp2
    simp [Heap.alloc]
    omega

lemma WFBound_update {h : Heap} (hwf : h.WFBound) {a : Nat} (ha : a < h.next)
    (o : FLObj) : (h.update a o).WFBound := by
  intro p hp
  rcases List.mem_cons.mp hp with rfl | hp2
  · simpa [Heap.update] using ha
  · simpa [Heap.update] using hwf p hp2

lemma HeapExt_refl (h : Heap) : HeapExt h h := ⟨le_refl _, fun _ _ => rfl⟩

lemma HeapExt_trans {h1 h2 h3 : Heap} (e1 : HeapExt h1 h2) (e2 : HeapExt h2 h3) :
    HeapExt h1 h3 := by
  refine ⟨le_trans e1.1 e2.1, ?_⟩
  intro a ha
  have h12 := e1.2 a ha
  have ha2 : (h2.find a).isSome = true := by rw [h12]; exact ha
  rw [e2.2 a ha2, h12]

lemma HeapExt_alloc {h : Heap} (hwf : h.WFBound) (o : FLObj) :
    HeapExt h (h.alloc o) := by
  refine ⟨Nat.le_succ _, ?_⟩
  intro a ha
  exact find_alloc_ne h o (by have := find_lt_next hwf ha; omega)

/-! ### Remaining-count bookkeeping -/

lemma countP_lt_of_witness (l : List Nat) (p q : Nat → Bool)
    (hpq : ∀ x ∈ l, q x = true → p x = true) (a : Nat) (ha : a ∈ l)
    (hpa : p a = true) (hqa : q a = false) : l.countP q < l.countP p := by
  induction l with
  | nil => simp at ha
  | cons y ys ih =>
    have hmono : ys.countP q ≤ ys.countP p :=
      List.countP_mono_left (fun x hx => hpq x (List.mem_cons_of_mem _ hx))
    rcases List.mem_cons.mp ha with rfl | ha2
    · rw [List.countP_cons, List.countP_cons, hpa, hqa]
      simp
      omega
    · have hlt := ih (fun x hx => hpq x (List.mem_cons_of_mem _ hx)) ha2
      rw [List.countP_cons, List.countP_cons]
      have : (if q y then 1 else 0) ≤ (if p y then 1 else 0) := by
        by_cases hq : q y = true
        · rw [hq, hpq y (List.mem_cons_self _ _) hq]
        · simp [hq]
      omega

lemma alookup_append_isNone {β : Type} {d m : List (Nat × β)} {x : Nat}
    (h : (alookup x (d ++ m)).isNone = true) : (alookup x m).isNone = true := by
  induction d with
  | nil => exact h
  | cons p ps ih =>
    by_cases hp : p.1 = x
    · simp [alookup, hp] at h
    · simp only [List.cons_append, alookup, hp, ite_false] at h
      exact ih h

lemma remainingCount_append_le (h0 : Heap) (d m : Memo) :
    remainingCount h0 (d ++ m) ≤ remainingCount h0 m :=
  List.countP_mono_left (fun x _ hx => alookup_append_isNone hx)

lemma remainingCount_cons_lt (h0 : Heap) (m : Memo) {a b : Nat}
    (ha : a ∈ h0.objs.map Prod.fst) (hnone : alookup a m = none) :
    remainingCount h0 ((a, b) :: m) < remainingCount h0 m := by
  refine countP_lt_of_witness _ _ _ ?_ a ha ?_ ?_
  · intro x hx hq
    by_cases hax : a = x
    · simp [alookup, hax] at hq
    · simpa [alookup, hax] using hq
  · simp [hnone]
  · simp [alookup]

/-! ### Copy-shape bookkeeping -/

lemma ItemsCopied_nil (memo : Memo) : ItemsCopied memo [] [] := by
  refine ⟨rfl, ?_, ?_⟩
  · intro i n h
    simp at h
  · intro i a h
    simp at h

lemma ItemsCopied_cons_int {memo : Memo} {src dst : List PyVal} (n : Int)
    (h : ItemsCopied memo src dst) :
    ItemsCopied memo (PyVal.int n :: src) (PyVal.int n :: dst) := by
  obtain ⟨hlen, hint, href⟩ := h
  refine ⟨by simp [hlen], ?_, ?_⟩
  · intro i m hi
    cases i with
    | zero => simpa using hi
    | succ j =>
      simp only [List.getElem?_cons_succ] at hi ⊢
      exact hint j m hi
  · intro i a hi
    cases i with
    | zero => simp at hi
    | succ j =>
      simp only [List.getElem?_cons_succ] at hi ⊢
      exact href j a hi

lemma ItemsCopied_cons_ref {memo : Memo} {src dst : List PyVal} {a b : Nat}
    (hab : alookup a memo = some b) (h : ItemsCopied memo src dst) :
    ItemsCopied memo (PyVal.ref a :: src) (PyVal.ref b :: dst) := by
  obtain ⟨hlen, hint, href⟩ := h
  refine ⟨by simp [hlen], ?_, ?_⟩
  · intro i m hi
    cases i with
    | zero => simp at hi
    | succ j =>
      simp only [List.getElem?_cons_succ] at hi ⊢
      exact hint j m hi
  · intro i c hi
    cases i with
    | zero =>
      simp only [List.getElem?_cons_zero, Option.some.injEq, PyVal.ref.injEq] at hi
      subst hi
      exact ⟨b, hab, by simp⟩
    | succ j =>
      simp only [List.getElem?_cons_succ] at hi ⊢
      exact href j c hi

lemma ItemsCopied_mono {mA mB : Memo} {src dst : List PyVal}
    (hlk : ∀ x y, alookup x mA = some y → alookup x mB = some y)
    (h : ItemsCopied mA src dst) : ItemsCopied mB src dst := by
  obtain ⟨hlen, hint, href⟩ := h
  refine ⟨hlen, hint, ?_⟩
  intro i a hi
  rcases href i a hi with ⟨b, hb, hdst⟩
  exact ⟨b, hlk a b hb, hdst⟩

lemma Copied_mono {h0 hA hB : Heap} {mA mB : Memo} {p : Nat × Nat}
    (hc : Copied h0 hA mA p) (hfind : hB.find p.2 = hA.find p.2)
    (hlk : ∀ x y, alookup x mA = some y → alookup x mB = some y) :
    Copied h0 hB mB p := by
  obtain ⟨objS, objD, hS, hD, hfr, hitems⟩ := hc
  exact ⟨objS, objD, hS, by rw [hfind]; exact hD, hfr, ItemsCopied_mono hlk hitems⟩

/-- Assembles the postconditions of the fresh-copy branch of
`deepcopyObj` from the recursive call's postconditions, given the final
heap's behaviour at and away from the copy address. -/
lemma deepcopy_obj_post (h0 h hA2 hF : Heap) (memo memoA mD : Memo)
    (a : Nat) (obj : FLObj) (vs : List PyVal)
    (hwf : h.WFBound)
    (hext : HeapExt h0 h)
    (hobj : h0.find a = some obj)
    (hma : alookup a memo = none)
    (hextA : HeapExt (h.alloc { frozen := false, items := [] }) hA2)
    (hmA : MemoOK h0 memoA)
    (hDelta : memoA = mD ++ ((a, h.next) :: memo))
    (hic : ItemsCopied memoA obj.items vs)
    (hfresh : ∀ p ∈ memoA, p ∈ ((a, h.next) :: memo) ∨
      (h.alloc { frozen := false, items := [] }).next ≤ p.2)
    (hcop : ∀ p ∈ memoA, p ∈ ((a, h.next) :: memo) ∨ Copied h0 hA2 memoA p)
    (hFb : hF.find h.next = some { frozen := obj.frozen, items := vs })
    (hFne : ∀ x, x ≠ h.next → hF.find x = hA2.find x)
    (hFnext : hF.next = hA2.next) :
    HeapExt h hF ∧ MemoOK h0 memoA ∧
    memoA = (mD ++ [(a, h.next)]) ++ memo ∧
    alookup a memoA = some h.next ∧
    (∀ p ∈ memoA, p ∈ memo ∨ h.next ≤ p.2) ∧
    (∀ p ∈ memoA, p ∈ memo ∨ Copied h0 hF memoA p) := by
  have hallocnext : (h.alloc { frozen := false, items := [] }).next = h.next + 1 := rfl
  refine ⟨?_, hmA, ?_, ?_, ?_, ?_⟩
  · refine ⟨?_, ?_⟩
    · rw [hFnext]
      have := hextA.1
      rw [hallocnext] at this
      omega
    · intro x hx
      have hlt : x < h.next := find_lt_next hwf hx
      have hne : x ≠ h.next := by omega
      have h1 : (h.alloc { frozen := false, items := [] }).find x = h.find x :=
        find_alloc_ne h _ hne
      have h1s : ((h.alloc { frozen := false, items := [] }).find x).isSome := by
        rw [h1]; exact hx
      rw [hFne x hne, hextA.2 x h1s, h1]
  · rw [hDelta, List.append_assoc]
    rfl
  · have hcons : alookup a ((a, h.next) :: memo) = some h.next := by
      simp [alookup]
    rw [hDelta]
    exact alookup_stable (hDelta ▸ hmA.1) hcons
  · intro p hp
    rcases hfresh p hp with hpc | hple
    · rcases List.mem_cons.mp hpc with rfl | hpm
      · exact Or.inr (le_refl _)
      · exact Or.inl hpm
    · rw [hallocnext] at hple
      exact Or.inr (by omega)
  · intro p hp
    rcases hfresh p hp with hpc | hple
    · rcases List.mem_cons.mp hpc with rfl | hpm
      · refine Or.inr ⟨obj, { frozen := obj.frozen, items := vs }, hobj, hFb, rfl, hic⟩
      · exact Or.inl hpm
    · rw [hallocnext] at hple
      rcases hcop p hp with hpc2 | hcopied
      · rcases List.mem_cons.mp hpc2 with rfl | hpm
        · exact absurd hple (by simp)
        · exact Or.inl hpm
      · refine Or.inr (Copied_mono hcopied ?_ (fun x y hxy => hxy))
        exact hFne p.2 (by omega)

/-- The joint totality-and-correctness induction for `deepcopyObj` and
`deepcopyItems`. -/
lemma deepcopy_spec (h0 : Heap) (hwf0 : h0.WFBound) (hcl : h0.Closed) :
    ∀ fuel, ObjSpec h0 fuel ∧ ItemsSpec h0 fuel := by
  intro fuel
  induction fuel with
  | zero =>
    constructor
    · intro h memo a _ _ _ _ hrem
      exact absurd hrem (Nat.not_lt_zero _)
    · intro h memo items _ _ _ _ hrem
      exact absurd hrem (Nat.not_lt_zero _)
  | succ fuel ih =>
    have hObj : ObjSpec h0 (fuel + 1) := by
      intro h memo a hwf hext hmOK hfind hrem
      cases hma : alookup a memo with
      | some b =>
        refine ⟨b, h, memo, [], ?_, hwf, HeapExt_refl h, hmOK, rfl, hma, ?_, ?_⟩
        · simp only [deepcopyObj, hma]
        · intro p hp; exact Or.inl hp
        · intro p hp; exact Or.inl hp
      | none =>
        obtain ⟨obj, hobj⟩ := Option.isSome_iff_exists.mp hfind
        have hfcode : h.find a = some obj := (hext.2 a hfind).trans hobj
        have hwf1 : (h.alloc { frozen := false, items := [] }).WFBound :=
          WFBound_alloc hwf _
        have hext_h1 : HeapExt h (h.alloc { frozen := false, items := [] }) :=
          HeapExt_alloc hwf _
        have hext01 : HeapExt h0 (h.alloc { frozen := false, items := [] }) :=
          HeapExt_trans hext hext_h1
        have hm1 : MemoOK h0 ((a, h.next) :: memo) := by
          constructor
          · simp only [List.map_cons]
            exact List.nodup_cons.mpr ⟨alookup_none_not_mem hma, hmOK.1⟩
          · intro p hp
            rcases List.mem_cons.mp hp with rfl | hp2
            · exact ⟨hfind, hext.1⟩
            · exact hmOK.2 p hp2
        have hrem1 : remainingCount h0 ((a, h.next) :: memo) < fuel := by
          have hmem : a ∈ h0.objs.map Prod.fst := by
            rcases Option.isSome_iff_exists.mp hfind with ⟨o, ho⟩
            exact mem_keys_of_alookup_some ho
          have := remainingCount_cons_lt h0 memo (b := h.next) hmem hma
          omega
        obtain ⟨vs, h2, memo2, mD, hrun, hwf2, hext12, hm2, hDelta, hic, hfresh, hcop⟩ :=
          ih.2 (h.alloc { frozen := false, items := [] }) ((a, h.next) :: memo)
            obj.items hwf1 hext01 hm1 (fun c hc => hcl a obj hobj c hc) hrem1
        have hb1 : (h.alloc { frozen := false, items := [] }).find h.next
            = some { frozen := false, items := [] } := find_alloc_self h _
        have hb2 : h2.find h.next = some { frozen := false, items := [] } := by
          rw [hext12.2 h.next (by rw [hb1]; rfl)]
          exact hb1
        have hb_lt2 : h.next < h2.next := by
          have h1 : (h.alloc { frozen := false, items := [] }).next = h.next + 1 := rfl
          have := hext12.1
          rw [h1] at this
          omega
        cases hfr : obj.frozen with
        | false =>
          have hpost := deepcopy_obj_post h0 h h2
            (h2.update h.next { frozen := false, items := vs }) memo memo2 mD a obj vs
            hwf hext hobj hma hext12 hm2 hDelta hic hfresh hcop
            (by rw [hfr]; exact find_update_self h2 h.next _)
            (fun x hx => find_update_ne h2 h.next _ hx)
            rfl
          refine ⟨h.next, h2.update h.next { frozen := false, items := vs }, memo2,
            mD ++ [(a, h.next)], ?_,
            WFBound_update hwf2 hb_lt2 _, hpost.1, hpost.2.1, hpost.2.2.1,
            hpost.2.2.2.1, hpost.2.2.2.2.1, hpost.2.2.2.2.2⟩
          simp only [deepcopyObj, hma, hfcode, hrun, hfr, Bool.false_eq_true, ite_false]
        | true =>
          have hpost := deepcopy_obj_post h0 h h2
            ((h2.update h.next { frozen := false, items := vs }).update h.next
              { frozen := true, items := vs }) memo memo2 mD a obj vs
            hwf hext hobj hma hext12 hm2 hDelta hic hfresh hcop
            (by rw [hfr]; exact find_update_self _ h.next _)
            (fun x hx => (find_update_ne _ h.next _ hx).trans (find_update_ne h2 h.next _ hx))
            rfl
          refine ⟨h.next,
            (h2.update h.next { frozen := false, items := vs }).update h.next
              { frozen := true, items := vs }, memo2,
            mD ++ [(a, h.next)], ?_,
            WFBound_update (WFBound_update hwf2 hb_lt2 _) hb_lt2 _, hpost.1, hpost.2.1,
            hpost.2.2.1, hpost.2.2.2.1, hpost.2.2.2.2.1, hpost.2.2.2.2.2⟩
          simp only [deepcopyObj, hma, hfcode, hrun, hfr, ite_true]
    have hItems : ItemsSpec h0 (fuel + 1) := by
      intro h memo items
      induction items generalizing h memo with
      | nil =>
        intro hwf hext hmOK hclosed hrem
        refine ⟨[], h, memo, [], ?_, hwf, HeapExt_refl h, hmOK, rfl,
          ItemsCopied_nil memo, ?_, ?_⟩
        · simp only [deepcopyItems]
        · intro p hp; exact Or.inl hp
        · intro p hp; exact Or.inl hp
      | cons v rest ihrest =>
        intro hwf hext hmOK hclosed hrem
        cases v with
        | int n =>
          obtain ⟨vs, h2, memo2, mD, hrun, hwf2, hext2, hm2, hDelta, hic, hfresh, hcop⟩ :=
            ihrest h memo hwf hext hmOK
              (fun c hc => hclosed c (List.mem_cons_of_mem _ hc)) hrem
          refine ⟨PyVal.int n :: vs, h2, memo2, mD, ?_, hwf2, hext2, hm2, hDelta,
            ItemsCopied_cons_int n hic, hfresh, hcop⟩
          simp only [deepcopyItems, hrun]
        | ref c =>
          have hc0 : (h0.find c).isSome := hclosed c (List.mem_cons_self _ _)
          obtain ⟨d, hA2, memoA, mDA, hrunA, hwfA, hextA, hmA, hDA, hlookA,
            hfreshA, hcopA⟩ := hObj h memo c hwf hext hmOK hc0 hrem
          have hremA : remainingCount h0 memoA < fuel + 1 := by
            have hle := remainingCount_append_le h0 mDA memo
            rw [← hDA] at hle
            omega
          obtain ⟨vs, h2, memo2, mD2, hrun2, hwf2, hext22, hm2, hD2, hic2,
            hfresh2, hcop2⟩ :=
            ihrest hA2 memoA hwfA (HeapExt_trans hext hextA) hmA
              (fun x hx => hclosed x (List.mem_cons_of_mem _ hx)) hremA
          have hlk : ∀ x y, alookup x memoA = some y → alookup x memo2 = some y := by
            intro x y hxy
            rw [hD2]
            exact alookup_stable (hD2 ▸ hm2.1) hxy
          refine ⟨PyVal.ref d :: vs, h2, memo2, mD2 ++ mDA, ?_, hwf2,
            HeapExt_trans hextA hext22, hm2, ?_, ?_, ?_, ?_⟩
          · simp only [deepcopyItems, hrunA, hrun2]
          · rw [hD2, hDA, List.append_assoc]
          · exact ItemsCopied_cons_ref (hlk c d hlookA) hic2
          · intro p hp
            rcases hfresh2 p hp with hpA | hple
            · rcases hfreshA p hpA with hpm | hple2
              · exact Or.inl hpm
              · exact Or.inr hple2
            · exact Or.inr (le_trans hextA.1 hple)
          · intro p hp
            rcases hcop2 p hp with hpA | hcopied
            · rcases hcopA p hpA with hpm | hcopiedA
              · exact Or.inl hpm
              · refine Or.inr (Copied_mono hcopiedA ?_ hlk)
                obtain ⟨objS, objD, hS, hD, hfr2, hitems2⟩ := hcopiedA
                exact hext22.2 p.2 (by rw [hD]; rfl)
            · exact Or.inr hcopied
    exact ⟨hObj, hItems⟩

/-- C4: deep-copying any object of a well-formed (possibly cyclic)
heap terminates with fuel one past the heap size, produces a fresh copy
(distinct from the source) whose frozen flag equals the source's, whose
atom slots are equal, and whose self-reference slots point at the copy,
not the original; moreover every memo entry created by the copy is a
faithful copy, so the whole reference topology is reproduced through
the memo. -/
theorem frozenList_deepcopy_cyclic (h0 : Heap) (a : Nat) (obj : FLObj)
    (hwf : h0.WFBound) (hcl : h0.Closed) (hobj : h0.find a = some obj) :
    ∃ b h2 memo2 objD,
      deepcopyObj (h0.objs.length + 1) h0 [] a = some (b, h2, memo2) ∧
      b ≠ a ∧
      h2.find b = some objD ∧
      objD.frozen = obj.frozen ∧
      objD.items.length = obj.items.length ∧
      (∀ (i : Nat) (n : Int), obj.items[i]? = some (PyVal.int n) →
        objD.items[i]? = some (PyVal.int n)) ∧
      (∀ i : Nat, obj.items[i]? = some (PyVal.ref a) →
        objD.items[i]? = some (PyVal.ref b)) ∧
      (∀ p ∈ memo2, Copied h0 h2 memo2 p) ∧
      alookup a memo2 = some b := by
  have hspec := (deepcopy_spec h0 hwf hcl (h0.objs.length + 1)).1
  have hrem : remainingCount h0 [] < h0.objs.length + 1 := by
    have h1 : remainingCount h0 []
        ≤ ((h0.objs.map Prod.fst).length) := List.countP_le_length _
    rw [List.length_map] at h1
    omega
  have hfind : (h0.find a).isSome := by rw [hobj]; rfl
  obtain ⟨b, h2, memo2, mD, hrun, hwf2, hext, hm2, hDelta, hlook, hfresh, hcop⟩ :=
    hspec h0 [] a hwf (HeapExt_refl h0)
      ⟨List.nodup_nil, fun p hp => absurd hp (List.not_mem_nil p)⟩ hfind hrem
  have hmem_ab : (a, b) ∈ memo2 := alookup_mem hlook
  have hcop_all : ∀ p ∈ memo2, Copied h0 h2 memo2 p := by
    intro p hp
    rcases hcop p hp with hemp | hc
    · exact absurd hemp (List.not_mem_nil p)
    · exact hc
  obtain ⟨objS, objD, hS, hD, hfr, hlen, hint, href⟩ := hcop_all (a, b) hmem_ab
  have hSobj : objS = obj := by
    rw [hobj] at hS
    exact (Option.some.inj hS).symm
  subst hSobj
  have hbne : b ≠ a := by
    rcases hfresh (a, b) hmem_ab with hemp | hle
    · exact absurd hemp (List.not_mem_nil _)
    · have := find_lt_next hwf hfind
      simp only at hle
      omega
  refine ⟨b, h2, memo2, objD, hrun, hbne, hD, hfr, hlen.symm, hint, ?_, hcop_all, hlook⟩
  intro i hi
  rcases href i a hi with ⟨d, hd, hslot⟩
  rw [hlook] at hd
  rw [← Option.some.inj hd] at hslot
  exact hslot

/-- Witness for C4 on a concrete frozen one-object cycle (the object
holds an atom and a reference to itself). -/
theorem frozenList_deepcopy_cyclic_witness :
    ∃ b h2 memo2 objD,
      deepcopyObj
          (({ objs := [(0, { frozen := true, items := [PyVal.int 7, PyVal.ref 0] })],
              next := 1 } : Heap).objs.length + 1)
          { objs := [(0, { frozen := true, items := [PyVal.int 7, PyVal.ref 0] })],
            next := 1 } [] 0
        = some (b, h2, memo2) ∧
      b ≠ 0 ∧
      h2.find b = some objD ∧
      objD.frozen = (FLObj.mk true [PyVal.int 7, PyVal.ref 0]).frozen ∧
      objD.items.length = (FLObj.mk true [PyVal.int 7, PyVal.ref 0]).items.length ∧
      (∀ (i : Nat) (n : Int),
        (FLObj.mk true [PyVal.int 7, PyVal.ref 0]).items[i]?
            = some (PyVal.int n) →
          objD.items[i]? = some (PyVal.int n)) ∧
      (∀ i : Nat,
        (FLObj.mk true [PyVal.int 7, PyVal.ref 0]).items[i]?
            = some (PyVal.ref 0) →
          objD.items[i]? = some (PyVal.ref b)) ∧
      (∀ p ∈ memo2,
        Copied { objs := [(0, { frozen := true, items := [PyVal.int 7, PyVal.ref 0] })],
                 next := 1 } h2 memo2 p) ∧
      alookup 0 memo2 = some b := by
  refine frozenList_deepcopy_cyclic _ 0 _ ?_ ?_ rfl
  · intro p hp
    rcases List.mem_cons.mp hp with rfl | hp2
    · exact Nat.zero_lt_one
    · exact absurd hp2 (List.not_mem_nil p)
  · intro c oc hfoc d hd
    by_cases h0c : (0 : Nat) = c
    · rw [← h0c] at hfoc
      have hoc : { frozen := true, items := [PyVal.int 7, PyVal.ref 0] } = oc := by
        simpa [Heap.find, alookup] using hfoc
      rw [← hoc] at hd
      have hd0 : d = 0 := by
        rcases List.mem_cons.mp hd with h1 | h1
        · exact PyVal.noConfusion h1
        · rcases List.mem_cons.mp h1 with h2 | h2
          · injection h2 with h3
          · exact absurd h2 (List.not_mem_nil _)
      rw [hd0]
      rfl
    · exfalso
      have : Heap.find
          { objs := [(0, { frozen := true, items := [PyVal.int 7, PyVal.ref 0] })],
            next := 1 } c = none := by
        simp [Heap.find, alookup, h0c]
      rw [this] at hfoc
      exact Option.noConfusion hfoc

/-- Witness for C6 on a concrete two-element source list. -/
theorem frozenList_ctor_eager_copy_witness :
    ∃ r h1,
      initRef ({ cells := [(0, [(1 : Int), 2])], next := 1 } : PyListHeap Int)
          (some 0) = some (r, h1) ∧
      r.frozen = false ∧
      alookup r.itemsAddr h1.cells = some [(1 : Int), 2] ∧
      r.itemsAddr ≠ 0 ∧
      FrozenList.richcmp ⟨r.frozen, [(1 : Int), 2]⟩ [(1 : Int), 2] 2 = some true ∧
      ∀ S2, alookup r.itemsAddr (writeCell h1 0 S2).cells = some [(1 : Int), 2] :=
  frozenList_ctor_eager_copy _ 0 [(1 : Int), 2]
    (by intro p hp; simp at hp; rw [hp]; decide) rfl
